import Mathlib

/-!
Verification of the RS_ECC elliptic-curve library (`src/lib.rs`).

The Rust source is shallowly embedded below.  `BigUint` values become `Nat`.
Every Rust `assert!` (the library's only failure mode: a panic) is modelled by
returning `none`, so each fallible operation returns an `Option`: `some r` is
the value the Rust function returns, `none` means the Rust function panics.
-/

namespace RsEcc

/-- Specification of `BigUint::modpow(e, p)`: modular exponentiation, `a ^ e mod p`. -/
def modpow (a e p : Nat) : Nat := a ^ e % p

namespace FiniteField

/-- `FiniteField::add`: asserts `a < p` and `b < p`, then returns `(a + b).modpow(1, p)`. -/
def add (a b p : Nat) : Option Nat :=
  if a < p ∧ b < p then some (modpow (a + b) 1 p) else none

/-- `FiniteField::mult`: asserts `a < p` and `b < p`, then returns `(a * b).modpow(1, p)`. -/
def mult (a b p : Nat) : Option Nat :=
  if a < p ∧ b < p then some (modpow (a * b) 1 p) else none

/-- `FiniteField::inv_add`: asserts `a < p`, then returns `p - a` (with no case for `a = 0`). -/
def inv_add (a p : Nat) : Option Nat :=
  if a < p then some (p - a) else none

/-- `FiniteField::sub`: asserts `a < p` and `b < p`, then returns `add(a, inv_add(b, p), p)`. -/
def sub (a b p : Nat) : Option Nat :=
  if a < p ∧ b < p then (inv_add b p).bind fun b_inv => add a b_inv p else none

/-- `FiniteField::inv_mult`: asserts `a < p`, then returns `a.modpow(p - 2, p)`
(with no case for `a = 0`). -/
def inv_mult (a p : Nat) : Option Nat :=
  if a < p then some (modpow a (p - 2) p) else none

/-- `FiniteField::div`: asserts `a < p` and `b < p`, then returns `mult(a, inv_mult(b, p), p)`. -/
def div (a b p : Nat) : Option Nat :=
  if a < p ∧ b < p then (inv_mult b p).bind fun b_inv => mult a b_inv p else none

end FiniteField

/-- The `Point` enum: `Coor(BigUint, BigUint)` or `Identity`. -/
inductive Point where
  | Coor (x y : Nat)
  | Identity
deriving DecidableEq, Repr

/-- The `EllipticCurve` struct: `y² = x³ + ax + b` over `F_p`. -/
structure EllipticCurve where
  a : Nat
  b : Nat
  p : Nat

namespace EllipticCurve

/-- `EllipticCurve::is_on_curve`: `Identity` is on the curve; for `Coor(x, y)` it checks
`y.modpow(2, p) == add(x.modpow(3, p), add(mult(a, x, p), b, p), p)`.  The inner field
operations assert their operands are reduced, so the check itself can panic (`none`). -/
def is_on_curve (ec : EllipticCurve) (c : Point) : Option Bool :=
  match c with
  | .Coor x y =>
    (FiniteField.mult ec.a x ec.p).bind fun ax =>
    (FiniteField.add ax ec.b ec.p).bind fun axb =>
    (FiniteField.add (modpow x 3 ec.p) axb ec.p).bind fun rhs =>
    some (modpow y 2 ec.p == rhs)
  | .Identity => some true

/-- `EllipticCurve::add`: asserts both points are on the curve and `c != d`, then applies
the chord law, with `Identity` as neutral element and a vertical-chord case returning
`Identity` when `x1 = x2` and `y1 + y2 ≡ 0 (mod p)`. -/
def add (ec : EllipticCurve) (c d : Point) : Option Point :=
  (ec.is_on_curve c).bind fun occ =>
  if occ then
    (ec.is_on_curve d).bind fun ocd =>
    if ocd then
      if c = d then none
      else
        match c, d with
        | .Identity, _ => some d
        | _, .Identity => some c
        | .Coor x1 y1, .Coor x2 y2 =>
          (FiniteField.add y1 y2 ec.p).bind fun y1plusy2 =>
          if x1 = x2 ∧ y1plusy2 = 0 then some .Identity
          else
            (FiniteField.sub y2 y1 ec.p).bind fun y2minusy1 =>
            (FiniteField.sub x2 x1 ec.p).bind fun x2minusx1 =>
            (FiniteField.div y2minusy1 x2minusx1 ec.p).bind fun s =>
            (FiniteField.sub (modpow s 2 ec.p) x1 ec.p).bind fun s2minusx1 =>
            (FiniteField.sub s2minusx1 x2 ec.p).bind fun x3 =>
            (FiniteField.sub x1 x3 ec.p).bind fun x1minusx3 =>
            (FiniteField.mult s x1minusx3 ec.p).bind fun sx1minusx3 =>
            (FiniteField.sub sx1minusx3 y1 ec.p).bind fun y3 =>
            some (.Coor x3 y3)
    else none
  else none

/-- `EllipticCurve::double`: asserts the point is on the curve, maps `Identity` to
`Identity`, and otherwise applies the tangent formula with
`s = (3·x1² + a) / (2·y1)` computed by the field operations. -/
def double (ec : EllipticCurve) (c : Point) : Option Point :=
  (ec.is_on_curve c).bind fun occ =>
  if occ then
    match c with
    | .Identity => some .Identity
    | .Coor x1 y1 =>
      (FiniteField.mult 3 (modpow x1 2 ec.p) ec.p).bind fun x1square3 =>
      (FiniteField.add x1square3 ec.a ec.p).bind fun numerator =>
      (FiniteField.mult 2 y1 ec.p).bind fun denominator =>
      (FiniteField.div numerator denominator ec.p).bind fun s =>
      (FiniteField.sub (modpow s 2 ec.p) x1 ec.p).bind fun s2minusx1 =>
      (FiniteField.sub s2minusx1 x1 ec.p).bind fun x3 =>
      (FiniteField.sub x1 x3 ec.p).bind fun x1minusx3 =>
      (FiniteField.mult s x1minusx3 ec.p).bind fun sx1minusx3 =>
      (FiniteField.sub sx1minusx3 y1 ec.p).bind fun y3 =>
      some (.Coor x3 y3)
  else none

/-- Fuel-driven binary length, `bitsAux n n = bits n`. -/
def bitsAux : Nat → Nat → Nat
  | 0, _ => 0
  | fuel + 1, n => if n = 0 then 0 else bitsAux fuel (n / 2) + 1

/-- Specification of `BigUint::bits`: the number of bits needed to represent `n`
(`0` for `n = 0`, `log2 n + 1` otherwise). -/
def bits (n : Nat) : Nat := bitsAux n n

/-- One pass of the `scalar_mult` loop: the argument `i + 1` means bit index `i`
is processed next (`t = double(t); if d.bit(i) { t = add(t, c) }`), counting down to bit `0`. -/
def scalarLoop (ec : EllipticCurve) (c : Point) (d : Nat) : Nat → Point → Option Point
  | 0, t => some t
  | i + 1, t =>
    (ec.double t).bind fun t1 =>
    (if d.testBit i then ec.add t1 c else some t1).bind fun t2 =>
    scalarLoop ec c d i t2

/-- `EllipticCurve::scalar_mult`: `t = c; for i in (0..(d.bits() - 1)).rev() { ... }`.
For `d = 0` the `u64` expression `d.bits() - 1` underflows, which is a panic with
overflow checks enabled (and an effectively unbounded loop otherwise); that case is
modelled as `none`. -/
def scalar_mult (ec : EllipticCurve) (c : Point) (d : Nat) : Option Point :=
  if d = 0 then none else scalarLoop ec c d (bits d - 1) c

end EllipticCurve

/-- The test curve of the repository: `y² = x³ + 2x + 2` over `F_17`. -/
def ec17 : EllipticCurve := ⟨2, 2, 17⟩

/-- A curve with a 2-torsion point: `y² = x³ + x` over `F_17`, on which `(0, 0)` lies. -/
def ecA1 : EllipticCurve := ⟨1, 0, 17⟩

-- Smoke tests matching the unit tests of the repository.
example : FiniteField.add 4 10 11 = some 3 := by decide
example : FiniteField.mult 4 10 31 = some 9 := by decide
example : FiniteField.inv_add 4 31 = some 27 := by decide
example : (FiniteField.inv_mult 4 31).bind (fun r => FiniteField.mult 4 r 31) = some 1 := by
  decide
example : ec17.add (.Coor 6 3) (.Coor 5 1) = some (.Coor 10 6) := by decide
example : ec17.add (.Coor 5 16) (.Coor 5 1) = some .Identity := by decide
example : ec17.double (.Coor 5 1) = some (.Coor 6 3) := by decide
example : ec17.scalar_mult (.Coor 5 1) 2 = some (.Coor 6 3) := by decide
example : ec17.scalar_mult (.Coor 5 1) 10 = some (.Coor 7 11) := by decide
example : ec17.scalar_mult (.Coor 5 1) 19 = some .Identity := by decide

/-! ### Characterizations of the field operations -/

namespace FiniteField

theorem add_elim {a b p r : Nat} (h : add a b p = some r) :
    a < p ∧ b < p ∧ r = (a + b) % p := by
  unfold add modpow at h
  split at h
  · rename_i hc
    exact ⟨hc.1, hc.2, by simpa [pow_one] using (Option.some.inj h).symm⟩
  · exact absurd h (by simp)

theorem add_intro {a b p : Nat} (h1 : a < p) (h2 : b < p) :
    add a b p = some ((a + b) % p) := by
  unfold add modpow
  rw [if_pos ⟨h1, h2⟩, pow_one]

theorem mult_elim {a b p r : Nat} (h : mult a b p = some r) :
    a < p ∧ b < p ∧ r = a * b % p := by
  unfold mult modpow at h
  split at h
  · rename_i hc
    exact ⟨hc.1, hc.2, by simpa [pow_one] using (Option.some.inj h).symm⟩
  · exact absurd h (by simp)

theorem mult_intro {a b p : Nat} (h1 : a < p) (h2 : b < p) :
    mult a b p = some (a * b % p) := by
  unfold mult modpow
  rw [if_pos ⟨h1, h2⟩, pow_one]

theorem sub_elim {a b p r : Nat} (h : sub a b p = some r) :
    a < p ∧ b < p ∧ 0 < b ∧ r = (a + (p - b)) % p := by
  unfold sub inv_add at h
  split at h
  · rename_i hc
    rw [if_pos hc.2] at h
    simp only [Option.some_bind] at h
    obtain ⟨h1, h2, h3⟩ := add_elim h
    exact ⟨hc.1, hc.2, by omega, h3⟩
  · exact absurd h (by simp)

theorem div_elim {a b p r : Nat} (h : div a b p = some r) :
    a < p ∧ b < p ∧ r = a * (b ^ (p - 2) % p) % p := by
  unfold div inv_mult modpow at h
  split at h
  · rename_i hc
    rw [if_pos hc.2] at h
    simp only [Option.some_bind] at h
    obtain ⟨h1, h2, h3⟩ := mult_elim h
    exact ⟨hc.1, hc.2, h3⟩
  · exact absurd h (by simp)

theorem add_cast {a b p r : Nat} (h : add a b p = some r) :
    r < p ∧ (r : ZMod p) = (a : ZMod p) + (b : ZMod p) := by
  obtain ⟨ha, hb, hr⟩ := add_elim h
  have hp : 0 < p := Nat.lt_of_le_of_lt (Nat.zero_le a) ha
  subst hr
  exact ⟨Nat.mod_lt _ hp, by rw [ZMod.natCast_mod, Nat.cast_add]⟩

theorem mult_cast {a b p r : Nat} (h : mult a b p = some r) :
    r < p ∧ (r : ZMod p) = (a : ZMod p) * (b : ZMod p) := by
  obtain ⟨ha, hb, hr⟩ := mult_elim h
  have hp : 0 < p := Nat.lt_of_le_of_lt (Nat.zero_le a) ha
  subst hr
  exact ⟨Nat.mod_lt _ hp, by rw [ZMod.natCast_mod, Nat.cast_mul]⟩

theorem sub_cast {a b p r : Nat} (h : sub a b p = some r) :
    r < p ∧ 0 < b ∧ (r : ZMod p) = (a : ZMod p) - (b : ZMod p) := by
  obtain ⟨ha, hb, hb0, hr⟩ := sub_elim h
  have hp : 0 < p := Nat.lt_of_le_of_lt (Nat.zero_le a) ha
  subst hr
  refine ⟨Nat.mod_lt _ hp, hb0, ?_⟩
  rw [ZMod.natCast_mod, Nat.cast_add, Nat.cast_sub hb.le, ZMod.natCast_self]
  ring

theorem div_cast {a b p r : Nat} (h : div a b p = some r) :
    r < p ∧ (r : ZMod p) = (a : ZMod p) * (b : ZMod p) ^ (p - 2) := by
  obtain ⟨ha, hb, hr⟩ := div_elim h
  have hp : 0 < p := Nat.lt_of_le_of_lt (Nat.zero_le a) ha
  subst hr
  exact ⟨Nat.mod_lt _ hp,
    by rw [ZMod.natCast_mod, Nat.cast_mul, ZMod.natCast_mod, Nat.cast_pow]⟩

end FiniteField

/-! ### Cast facts -/

theorem modpow_lt {a e p : Nat} (hp : 0 < p) : modpow a e p < p := Nat.mod_lt _ hp

theorem modpow_cast {a e p : Nat} : ((modpow a e p : Nat) : ZMod p) = (a : ZMod p) ^ e := by
  unfold modpow
  rw [ZMod.natCast_mod, Nat.cast_pow]

theorem cast_inj_lt {p a b : Nat} (ha : a < p) (hb : b < p) (h : (a : ZMod p) = b) : a = b := by
  haveI : NeZero p := ⟨by omega⟩
  have h2 := congrArg ZMod.val h
  rwa [ZMod.val_cast_of_lt ha, ZMod.val_cast_of_lt hb] at h2

theorem cast_ne_zero_of {p a : Nat} (h0 : 0 < a) (ha : a < p) : (a : ZMod p) ≠ 0 := by
  rw [Ne, ZMod.natCast_zmod_eq_zero_iff_dvd]
  exact fun hdvd => absurd (Nat.le_of_dvd h0 hdvd) (by omega)

/-! ### The short Weierstrass tangent and chord identities over a field -/

theorem shortW_tangent {F : Type} [Field F] {A B X Y S X3 Y3 : F}
    (hE : Y ^ 2 = X ^ 3 + A * X + B) (hf : S * (2 * Y) = 3 * X ^ 2 + A)
    (hX3 : X3 = S ^ 2 - X - X) (hY3 : Y3 = S * (X - X3) - Y) :
    Y3 ^ 2 = X3 ^ 3 + A * X3 + B := by
  subst hX3 hY3
  linear_combination (S ^ 2 - 3 * X) * hf + hE

theorem shortW_chord {F : Type} [Field F] {A B X1 Y1 X2 Y2 S X3 Y3 : F}
    (hE1 : Y1 ^ 2 = X1 ^ 3 + A * X1 + B) (hE2 : Y2 ^ 2 = X2 ^ 3 + A * X2 + B)
    (hd : X2 - X1 ≠ 0) (hf : S * (X2 - X1) = Y2 - Y1)
    (hX3 : X3 = S ^ 2 - X1 - X2) (hY3 : Y3 = S * (X1 - X3) - Y1) :
    Y3 ^ 2 = X3 ^ 3 + A * X3 + B := by
  subst hX3 hY3
  have key : (X2 - X1) * ((S * (X1 - (S ^ 2 - X1 - X2)) - Y1) ^ 2 -
      ((S ^ 2 - X1 - X2) ^ 3 + A * (S ^ 2 - X1 - X2) + B)) = 0 := by
    linear_combination ((X2 - X1) * S ^ 3 + S ^ 2 * (Y1 + Y2) -
        (X2 - X1) * S * (2 * X1 + X2) - (2 * X1 + X2) * (Y1 + Y2)) * hf +
      (S ^ 2 - 2 * X1 - X2) * hE2 + ((X2 - X1) - (S ^ 2 - 2 * X1 - X2)) * hE1
  exact sub_eq_zero.mp ((mul_eq_zero.mp key).resolve_left hd)

/-! ### The on-curve predicate as an equation over `ZMod p` -/

theorem is_on_curve_coor_elim {ec : EllipticCurve} {x y : Nat}
    (h : ec.is_on_curve (.Coor x y) = some true) :
    ec.a < ec.p ∧ ec.b < ec.p ∧ x < ec.p ∧
      (y : ZMod ec.p) ^ 2 =
        (x : ZMod ec.p) ^ 3 + (ec.a : ZMod ec.p) * (x : ZMod ec.p) + (ec.b : ZMod ec.p) := by
  simp only [EllipticCurve.is_on_curve] at h
  obtain ⟨ax, hax, h⟩ := Option.bind_eq_some'.mp h
  obtain ⟨axb, haxb, h⟩ := Option.bind_eq_some'.mp h
  obtain ⟨rhs, hrhs, h⟩ := Option.bind_eq_some'.mp h
  have heq : modpow y 2 ec.p = rhs := by simpa using Option.some.inj h
  obtain ⟨ha, hx, hax2⟩ := FiniteField.mult_elim hax
  obtain ⟨_, hb, haxb2⟩ := FiniteField.add_elim haxb
  obtain ⟨_, _, hrhs2⟩ := FiniteField.add_elim hrhs
  have hp : 0 < ec.p := by omega
  refine ⟨ha, hb, hx, ?_⟩
  have hcast : ((modpow y 2 ec.p : Nat) : ZMod ec.p) = ((rhs : Nat) : ZMod ec.p) := by rw [heq]
  rw [modpow_cast, hrhs2, ZMod.natCast_mod, Nat.cast_add, modpow_cast, haxb2,
    ZMod.natCast_mod, Nat.cast_add, hax2, ZMod.natCast_mod, Nat.cast_mul] at hcast
  rw [hcast]; ring

theorem is_on_curve_coor_intro {ec : EllipticCurve} {x y : Nat}
    (ha : ec.a < ec.p) (hb : ec.b < ec.p) (hx : x < ec.p)
    (heq : (y : ZMod ec.p) ^ 2 =
      (x : ZMod ec.p) ^ 3 + (ec.a : ZMod ec.p) * (x : ZMod ec.p) + (ec.b : ZMod ec.p)) :
    ec.is_on_curve (.Coor x y) = some true := by
  have hp : 0 < ec.p := by omega
  simp only [EllipticCurve.is_on_curve]
  rw [FiniteField.mult_intro ha hx, Option.some_bind,
    FiniteField.add_intro (Nat.mod_lt _ hp) hb, Option.some_bind,
    FiniteField.add_intro (modpow_lt hp) (Nat.mod_lt _ hp), Option.some_bind]
  refine congrArg some ?_
  rw [beq_iff_eq]
  apply cast_inj_lt (modpow_lt hp) (Nat.mod_lt _ hp)
  rw [modpow_cast, ZMod.natCast_mod, Nat.cast_add, modpow_cast,
    ZMod.natCast_mod, Nat.cast_add, ZMod.natCast_mod, Nat.cast_mul, heq]
  ring

/-! ### Results of `double` and `add`, whenever produced, lie on the curve -/

theorem double_sound {ec : EllipticCurve} (hp : ec.p.Prime) {c R : Point}
    (h : ec.double c = some R) : ec.is_on_curve R = some true := by
  haveI : Fact ec.p.Prime := ⟨hp⟩
  simp only [EllipticCurve.double] at h
  obtain ⟨occ, hocc, h⟩ := Option.bind_eq_some'.mp h
  cases occ with
  | false => simp at h
  | true =>
    rw [if_pos rfl] at h
    cases c with
    | Identity =>
      injection h with h
      subst h
      rfl
    | Coor x1 y1 =>
      obtain ⟨x1square3, h1, h⟩ := Option.bind_eq_some'.mp h
      obtain ⟨num, h2, h⟩ := Option.bind_eq_some'.mp h
      obtain ⟨den, h3, h⟩ := Option.bind_eq_some'.mp h
      obtain ⟨s, h4, h⟩ := Option.bind_eq_some'.mp h
      obtain ⟨t1, h5, h⟩ := Option.bind_eq_some'.mp h
      obtain ⟨x3, h6, h⟩ := Option.bind_eq_some'.mp h
      obtain ⟨t2, h7, h⟩ := Option.bind_eq_some'.mp h
      obtain ⟨t3, h8, h⟩ := Option.bind_eq_some'.mp h
      obtain ⟨y3, h9, h⟩ := Option.bind_eq_some'.mp h
      injection h with h
      subst h
      obtain ⟨ha, hb, hx1, hE⟩ := is_on_curve_coor_elim hocc
      have hp0 : 0 < ec.p := hp.pos
      obtain ⟨h3p, _, hv1⟩ := FiniteField.mult_elim h1
      have c1 : (x1square3 : ZMod ec.p) = 3 * (x1 : ZMod ec.p) ^ 2 := by
        rw [hv1, ZMod.natCast_mod, Nat.cast_mul, modpow_cast, Nat.cast_ofNat]
      have c2 : (num : ZMod ec.p) = 3 * (x1 : ZMod ec.p) ^ 2 + (ec.a : ZMod ec.p) := by
        rw [(FiniteField.add_cast h2).2, c1]
      obtain ⟨h2p, hy1, hv3⟩ := FiniteField.mult_elim h3
      have c3 : (den : ZMod ec.p) = 2 * (y1 : ZMod ec.p) := by
        rw [hv3, ZMod.natCast_mod, Nat.cast_mul, Nat.cast_ofNat]
      have c4 : (s : ZMod ec.p) = (num : ZMod ec.p) * (den : ZMod ec.p) ^ (ec.p - 2) :=
        (FiniteField.div_cast h4).2
      have c5 : (t1 : ZMod ec.p) = (s : ZMod ec.p) ^ 2 - (x1 : ZMod ec.p) := by
        rw [(FiniteField.sub_cast h5).2.2, modpow_cast]
      have c6 : (x3 : ZMod ec.p) =
          (s : ZMod ec.p) ^ 2 - (x1 : ZMod ec.p) - (x1 : ZMod ec.p) := by
        rw [(FiniteField.sub_cast h6).2.2, c5]
      have c7 : (t2 : ZMod ec.p) = (x1 : ZMod ec.p) - (x3 : ZMod ec.p) :=
        (FiniteField.sub_cast h7).2.2
      have c8 : (t3 : ZMod ec.p) = (s : ZMod ec.p) * ((x1 : ZMod ec.p) - (x3 : ZMod ec.p)) := by
        rw [(FiniteField.mult_cast h8).2, c7]
      have c9 : (y3 : ZMod ec.p) =
          (s : ZMod ec.p) * ((x1 : ZMod ec.p) - (x3 : ZMod ec.p)) - (y1 : ZMod ec.p) := by
        rw [(FiniteField.sub_cast h9).2.2, c8]
      have hy1pos : 0 < y1 := (FiniteField.sub_cast h9).2.1
      have hYne : (y1 : ZMod ec.p) ≠ 0 := cast_ne_zero_of hy1pos hy1
      have h2ne : (2 : ZMod ec.p) ≠ 0 := by
        have := cast_ne_zero_of (p := ec.p) (a := 2) (by omega) (by omega)
        rwa [Nat.cast_ofNat] at this
      have hdenne : (den : ZMod ec.p) ≠ 0 := by
        rw [c3]; exact mul_ne_zero h2ne hYne
      have hf : (s : ZMod ec.p) * (2 * (y1 : ZMod ec.p)) =
          3 * (x1 : ZMod ec.p) ^ 2 + (ec.a : ZMod ec.p) := by
        rw [← c3, ← c2, c4, mul_assoc, ← pow_succ]
        have hexp : ec.p - 2 + 1 = ec.p - 1 := by omega
        rw [hexp, ZMod.pow_card_sub_one_eq_one hdenne, mul_one]
      have hgoal := shortW_tangent hE hf c6 c9
      exact is_on_curve_coor_intro ha hb (FiniteField.sub_cast h6).1 hgoal

theorem add_sound {ec : EllipticCurve} (hp : ec.p.Prime) {c d R : Point}
    (h : ec.add c d = some R) : ec.is_on_curve R = some true := by
  haveI : Fact ec.p.Prime := ⟨hp⟩
  simp only [EllipticCurve.add] at h
  obtain ⟨occ, hocc, h⟩ := Option.bind_eq_some'.mp h
  cases occ with
  | false => simp at h
  | true =>
    rw [if_pos rfl] at h
    obtain ⟨ocd, hocd, h⟩ := Option.bind_eq_some'.mp h
    cases ocd with
    | false => simp at h
    | true =>
      rw [if_pos rfl] at h
      by_cases hcd : c = d
      · rw [if_pos hcd] at h; exact absurd h (by simp)
      · rw [if_neg hcd] at h
        cases c with
        | Identity =>
          cases d with
          | Identity => exact absurd rfl hcd
          | Coor x2 y2 =>
            injection h with h
            subst h
            exact hocd
        | Coor x1 y1 =>
          cases d with
          | Identity =>
            injection h with h
            subst h
            exact hocc
          | Coor x2 y2 =>
            obtain ⟨yy, hyy, h⟩ := Option.bind_eq_some'.mp h
            by_cases hv : x1 = x2 ∧ yy = 0
            · rw [if_pos hv] at h
              injection h with h
              subst h
              rfl
            · rw [if_neg hv] at h
              obtain ⟨nn, h1, h⟩ := Option.bind_eq_some'.mp h
              obtain ⟨dd, h2, h⟩ := Option.bind_eq_some'.mp h
              obtain ⟨s, h3, h⟩ := Option.bind_eq_some'.mp h
              obtain ⟨t1, h4, h⟩ := Option.bind_eq_some'.mp h
              obtain ⟨x3, h5, h⟩ := Option.bind_eq_some'.mp h
              obtain ⟨t2, h6, h⟩ := Option.bind_eq_some'.mp h
              obtain ⟨t3, h7, h⟩ := Option.bind_eq_some'.mp h
              obtain ⟨y3, h8, h⟩ := Option.bind_eq_some'.mp h
              injection h with h
              subst h
              obtain ⟨ha, hb, hx1, hE1⟩ := is_on_curve_coor_elim hocc
              obtain ⟨_, _, hx2, hE2⟩ := is_on_curve_coor_elim hocd
              have hp0 : 0 < ec.p := hp.pos
              obtain ⟨hy1, hy2, hyyv⟩ := FiniteField.add_elim hyy
              have cN : (nn : ZMod ec.p) = (y2 : ZMod ec.p) - (y1 : ZMod ec.p) :=
                (FiniteField.sub_cast h1).2.2
              have cD : (dd : ZMod ec.p) = (x2 : ZMod ec.p) - (x1 : ZMod ec.p) :=
                (FiniteField.sub_cast h2).2.2
              have cS : (s : ZMod ec.p) = (nn : ZMod ec.p) * (dd : ZMod ec.p) ^ (ec.p - 2) :=
                (FiniteField.div_cast h3).2
              have hx12 : x1 ≠ x2 := by
                intro hxeq
                have hyne : y1 ≠ y2 := fun hyeq => hcd (by rw [hxeq, hyeq])
                have hsq : (y1 : ZMod ec.p) ^ 2 = (y2 : ZMod ec.p) ^ 2 := by
                  rw [hE1, hE2, hxeq]
                have hfact : ((y1 : ZMod ec.p) - (y2 : ZMod ec.p)) *
                    ((y1 : ZMod ec.p) + (y2 : ZMod ec.p)) = 0 := by
                  linear_combination hsq
                rcases mul_eq_zero.mp hfact with h0 | h0
                · exact hyne (cast_inj_lt hy1 hy2 (sub_eq_zero.mp h0))
                · refine hv ⟨hxeq, ?_⟩
                  have hz : ((y1 + y2 : Nat) : ZMod ec.p) = 0 := by push_cast; exact h0
                  rw [ZMod.natCast_zmod_eq_zero_iff_dvd] at hz
                  rw [hyyv]
                  omega
              have hDne : (x2 : ZMod ec.p) - (x1 : ZMod ec.p) ≠ 0 :=
                sub_ne_zero.mpr fun heq2 => hx12 (cast_inj_lt hx2 hx1 heq2).symm
              have hddne : (dd : ZMod ec.p) ≠ 0 := by rw [cD]; exact hDne
              have hf : (s : ZMod ec.p) * ((x2 : ZMod ec.p) - (x1 : ZMod ec.p)) =
                  (y2 : ZMod ec.p) - (y1 : ZMod ec.p) := by
                rw [← cD, ← cN, cS, mul_assoc, ← pow_succ]
                have hexp : ec.p - 2 + 1 = ec.p - 1 := by
                  have := hp.two_le; omega
                rw [hexp, ZMod.pow_card_sub_one_eq_one hddne, mul_one]
              have c4 : (t1 : ZMod ec.p) = (s : ZMod ec.p) ^ 2 - (x1 : ZMod ec.p) := by
                rw [(FiniteField.sub_cast h4).2.2, modpow_cast]
              have c5 : (x3 : ZMod ec.p) =
                  (s : ZMod ec.p) ^ 2 - (x1 : ZMod ec.p) - (x2 : ZMod ec.p) := by
                rw [(FiniteField.sub_cast h5).2.2, c4]
              have c6 : (t2 : ZMod ec.p) = (x1 : ZMod ec.p) - (x3 : ZMod ec.p) :=
                (FiniteField.sub_cast h6).2.2
              have c7 : (t3 : ZMod ec.p) =
                  (s : ZMod ec.p) * ((x1 : ZMod ec.p) - (x3 : ZMod ec.p)) := by
                rw [(FiniteField.mult_cast h7).2, c6]
              have c8 : (y3 : ZMod ec.p) =
                  (s : ZMod ec.p) * ((x1 : ZMod ec.p) - (x3 : ZMod ec.p)) - (y1 : ZMod ec.p) := by
                rw [(FiniteField.sub_cast h8).2.2, c7]
              have hgoal := shortW_chord hE1 hE2 hDne hf c5 c8
              exact is_on_curve_coor_intro ha hb (FiniteField.sub_cast h5).1 hgoal

/-! ### Coordinates of produced points are reduced -/

/-- Both coordinates of an affine point are below `p` (vacuous for `Identity`). -/
abbrev Point.coordsLt : Point → Nat → Prop
  | .Coor x y, p => x < p ∧ y < p
  | .Identity, _ => True

theorem double_result_lt {ec : EllipticCurve} {c : Point} {x y : Nat}
    (h : ec.double c = some (.Coor x y)) : x < ec.p ∧ y < ec.p := by
  simp only [EllipticCurve.double] at h
  obtain ⟨occ, hocc, h⟩ := Option.bind_eq_some'.mp h
  cases occ with
  | false => simp at h
  | true =>
    rw [if_pos rfl] at h
    cases c with
    | Identity => simp at h
    | Coor x1 y1 =>
      obtain ⟨x1square3, h1, h⟩ := Option.bind_eq_some'.mp h
      obtain ⟨num, h2, h⟩ := Option.bind_eq_some'.mp h
      obtain ⟨den, h3, h⟩ := Option.bind_eq_some'.mp h
      obtain ⟨s, h4, h⟩ := Option.bind_eq_some'.mp h
      obtain ⟨t1, h5, h⟩ := Option.bind_eq_some'.mp h
      obtain ⟨x3, h6, h⟩ := Option.bind_eq_some'.mp h
      obtain ⟨t2, h7, h⟩ := Option.bind_eq_some'.mp h
      obtain ⟨t3, h8, h⟩ := Option.bind_eq_some'.mp h
      obtain ⟨y3, h9, h⟩ := Option.bind_eq_some'.mp h
      injection h with h
      injection h with hx hy
      subst hx hy
      exact ⟨(FiniteField.sub_cast h6).1, (FiniteField.sub_cast h9).1⟩

theorem add_result_lt {ec : EllipticCurve} {c d : Point} {x y : Nat}
    (hc : Point.coordsLt c ec.p) (hd : Point.coordsLt d ec.p)
    (h : ec.add c d = some (.Coor x y)) : x < ec.p ∧ y < ec.p := by
  simp only [EllipticCurve.add] at h
  obtain ⟨occ, hocc, h⟩ := Option.bind_eq_some'.mp h
  cases occ with
  | false => simp at h
  | true =>
    rw [if_pos rfl] at h
    obtain ⟨ocd, hocd, h⟩ := Option.bind_eq_some'.mp h
    cases ocd with
    | false => simp at h
    | true =>
      rw [if_pos rfl] at h
      by_cases hcd : c = d
      · rw [if_pos hcd] at h; exact absurd h (by simp)
      · rw [if_neg hcd] at h
        cases c with
        | Identity =>
          cases d with
          | Identity => exact absurd rfl hcd
          | Coor x2 y2 =>
            injection h with h
            injection h with hx hy
            subst hx hy
            exact hd
        | Coor x1 y1 =>
          cases d with
          | Identity =>
            injection h with h
            injection h with hx hy
            subst hx hy
            exact hc
          | Coor x2 y2 =>
            obtain ⟨yy, hyy, h⟩ := Option.bind_eq_some'.mp h
            by_cases hv : x1 = x2 ∧ yy = 0
            · rw [if_pos hv] at h; simp at h
            · rw [if_neg hv] at h
              obtain ⟨nn, h1, h⟩ := Option.bind_eq_some'.mp h
              obtain ⟨dd, h2, h⟩ := Option.bind_eq_some'.mp h
              obtain ⟨s, h3, h⟩ := Option.bind_eq_some'.mp h
              obtain ⟨t1, h4, h⟩ := Option.bind_eq_some'.mp h
              obtain ⟨x3, h5, h⟩ := Option.bind_eq_some'.mp h
              obtain ⟨t2, h6, h⟩ := Option.bind_eq_some'.mp h
              obtain ⟨t3, h7, h⟩ := Option.bind_eq_some'.mp h
              obtain ⟨y3, h8, h⟩ := Option.bind_eq_some'.mp h
              injection h with h
              injection h with hx hy
              subst hx hy
              exact ⟨(FiniteField.sub_cast h5).1, (FiniteField.sub_cast h8).1⟩

/-! ### Claims -/

/-- C1: the claim requires `add(P, P)` to detect the equal-point case and return
`double(P)` for affine `P = Q` with `y ≠ 0`.  The code instead asserts `c != d` and
panics: for `P = (5, 1)` on the curve `y² = x³ + 2x + 2` over `F_17`, `add(P, P)`
panics (`none`) while `double(P) = (6, 3)`. -/
theorem spec_C1_eval :
    ec17.is_on_curve (.Coor 5 1) = some true ∧
    ec17.add (.Coor 5 1) (.Coor 5 1) = none ∧
    ec17.double (.Coor 5 1) = some (.Coor 6 3) := by decide

/-- C2: the claim requires `scalar_mul(P, 0) = Identity` and
`scalar_mul(Identity, k) = Identity`.  The code fails both: for `k = 0` the `u64`
expression `d.bits() - 1` underflows (panic), and for `P = Identity`, `k = 3` the loop
calls `add(Identity, Identity)`, whose `c != d` assertion panics. -/
theorem spec_C2_eval :
    ec17.scalar_mult (.Coor 5 1) 0 = none ∧
    ec17.scalar_mult Point.Identity 3 = none := by decide

/-- C3 counterexample: `(0, 6)` lies on `y² = x³ + 2x + 2` over `F_17` with reduced
coordinates, yet `double((0, 6))` produces no result at all (the internal
`sub(s², 0)` computes `inv_add(0, 17) = 17` and the `add` assertion `17 < 17` panics),
so its result cannot satisfy the on-curve predicate. -/
theorem spec_C3_cex :
    ec17.is_on_curve (.Coor 0 6) = some true ∧ ec17.double (.Coor 0 6) = none := by decide

/-- C3 (amended): for a prime modulus, whenever `double(P)` or `add(P, Q)` does return a
result (rather than panicking), that result is `Identity` or an affine point satisfying
`y² ≡ x³ + ax + b (mod p)`. -/
theorem spec_C3 (ec : EllipticCurve) (hp : ec.p.Prime) (P Q R : Point) :
    (ec.double P = some R → ec.is_on_curve R = some true) ∧
    (ec.add P Q = some R → ec.is_on_curve R = some true) :=
  ⟨fun h => double_sound hp h, fun h => add_sound hp h⟩

/-- C3 witness: the amended theorem applied to `double((5,1)) = (6,3)` and
`add((6,3), (5,1)) = (10,6)` on the curve over `F_17`. -/
theorem spec_C3_witness :
    ec17.is_on_curve (.Coor 6 3) = some true ∧ ec17.is_on_curve (.Coor 10 6) = some true :=
  ⟨(spec_C3 ec17 (show Nat.Prime 17 by norm_num) (.Coor 5 1) Point.Identity
      (.Coor 6 3)).1 (by decide),
   (spec_C3 ec17 (show Nat.Prime 17 by norm_num) (.Coor 6 3) (.Coor 5 1)
      (.Coor 10 6)).2 (by decide)⟩

/-- C4: `scalar_mul(P, 1) = P` and `scalar_mul(P, 2) = double(P)` hold, and
`scalar_mul(P, q) = Identity` holds for the order-19 point `(5, 1)` on the `F_17` curve;
but the order-q claim fails in general: `(0, 0)` on `y² = x³ + x` over `F_17` has
order 2 (its y-coordinate is 0, so `P = -P`), yet `scalar_mul((0, 0), 2)` panics
(`none`) instead of returning `Identity`. -/
theorem spec_C4_eval :
    ecA1.is_on_curve (.Coor 0 0) = some true ∧
    ecA1.scalar_mult (.Coor 0 0) 2 = none ∧
    ec17.scalar_mult (.Coor 5 1) 1 = some (.Coor 5 1) ∧
    ec17.scalar_mult (.Coor 5 1) 2 = ec17.double (.Coor 5 1) ∧
    ec17.scalar_mult (.Coor 5 1) 19 = some Point.Identity := by decide

/-- C5: the claim requires `double(Identity) = Identity` (which holds) and
`double(Affine(x, 0)) = Identity`.  The code fails the latter: for the on-curve point
`(0, 0)` of `y² = x³ + x` over `F_17`, `double((0, 0))` panics (`none`) instead of
returning `Identity`, because `sub` is fed the subtrahend 0. -/
theorem spec_C5_eval :
    ec17.double Point.Identity = some Point.Identity ∧
    ecA1.double (.Coor 0 0) = none := by decide

/-- C6: for `b ≠ 0` the claimed formula holds, e.g. `sub(4, 10, 11) = (4 + (11 - 10)) % 11 = 5`;
but for `b = 0` the code does not return `a`: `sub(3, 0, 11)` computes
`inv_add(0, 11) = 11` and the inner `add` assertion `11 < 11` panics (`none`). -/
theorem spec_C6_eval :
    FiniteField.sub 4 10 11 = some ((4 + (11 - 10)) % 11) ∧
    FiniteField.sub 3 0 11 = none := by decide

/-- C7: for `a ≠ 0` the claim holds, e.g. `inv_add(4, 31) = 27` with
`add(4, 27, 31) = 0`; but at `a = 0` the code returns `inv_add(0, 11) = 11` (not the
claimed 0), an out-of-range value on which `add(0, 11, 11)` panics (`none`) instead of
producing the claimed 0. -/
theorem spec_C7_eval :
    FiniteField.inv_add 0 11 = some 11 ∧
    FiniteField.add 0 11 11 = none ∧
    FiniteField.inv_add 4 31 = some 27 ∧
    FiniteField.add 4 27 31 = some 0 := by decide

/-- C8: the claim requires `inv_mul(0, p)` and `div(a, 0, p)` to fail.  The code
instead returns values: `inv_mult(0, 11) = 0^9 mod 11 = 0` and `div(5, 0, 11) = 0`. -/
theorem spec_C8_eval :
    FiniteField.inv_mult 0 11 = some 0 ∧
    FiniteField.div 5 0 11 = some 0 := by decide

/-- C9: for every prime `p` and `a ∈ [1, p-1]`, `mult(a, inv_mult(a, p), p) = 1`, where
`inv_mult(a, p) = a^(p-2) mod p` — Fermat inversion is correct on nonzero reduced
operands. -/
theorem spec_C9 (p a : Nat) (hp : p.Prime) (h0 : 0 < a) (hap : a < p) :
    (FiniteField.inv_mult a p).bind (fun i => FiniteField.mult a i p) = some 1 := by
  haveI : Fact p.Prime := ⟨hp⟩
  have hp0 : 0 < p := hp.pos
  unfold FiniteField.inv_mult
  rw [if_pos hap, Option.some_bind, FiniteField.mult_intro hap (modpow_lt hp0)]
  refine congrArg some ?_
  apply cast_inj_lt (Nat.mod_lt _ hp0) hp.one_lt
  rw [ZMod.natCast_mod, Nat.cast_mul, modpow_cast, Nat.cast_one]
  have hane : (a : ZMod p) ≠ 0 := cast_ne_zero_of h0 hap
  calc (a : ZMod p) * (a : ZMod p) ^ (p - 2) = (a : ZMod p) ^ (p - 2 + 1) := by
        rw [pow_succ]; ring
    _ = (a : ZMod p) ^ (p - 1) := by
        have := hp.two_le
        congr 1
        omega
    _ = 1 := ZMod.pow_card_sub_one_eq_one hane

/-- C9 witness: the theorem applied at `p = 31`, `a = 4` (the repository's own test,
where `inv_mult(4, 31) = 8` and `4 * 8 ≡ 1 (mod 31)`). -/
theorem spec_C9_witness :
    (FiniteField.inv_mult 4 31).bind (fun i => FiniteField.mult 4 i 31) = some 1 :=
  spec_C9 31 4 (by norm_num) (by norm_num) (by norm_num)

/-- C10: on inputs that are on the curve with coordinates in `[0, p-1]`, every affine
point returned by `add` or `double` has both coordinates strictly below `p`. -/
theorem spec_C10 (ec : EllipticCurve) (P Q : Point)
    (hP : Point.coordsLt P ec.p) (hQ : Point.coordsLt Q ec.p)
    (_hPc : ec.is_on_curve P = some true) (_hQc : ec.is_on_curve Q = some true) :
    (∀ x y, ec.add P Q = some (.Coor x y) → x < ec.p ∧ y < ec.p) ∧
    (∀ x y, ec.double P = some (.Coor x y) → x < ec.p ∧ y < ec.p) :=
  ⟨fun _ _ h => add_result_lt hP hQ h, fun _ _ h => double_result_lt h⟩

/-- C10 witness: the theorem applied to `add((6,3), (5,1)) = (10,6)` on the curve
over `F_17`. -/
theorem spec_C10_witness : (10 : Nat) < 17 ∧ (6 : Nat) < 17 :=
  (spec_C10 ec17 (.Coor 6 3) (.Coor 5 1) (by decide) (by decide) (by decide)
    (by decide)).1 10 6 (by decide)

end RsEcc
